import Mathlib

/-!
A shallow embedding of ADBench's `data_generator.py`.

Feature values are rationals and matrices are lists of rows.  The external
stochastic collaborators (sklearn's GaussianMixture, the copulas library,
numpy's random draws, `random.shuffle`) are modelled as explicit oracle
parameters; the documented contracts of those libraries (`sample(n)` returns
`n` rows, `uniform(low, high)` stays inside its bounds, `choice(pop, k,
replace=False)` returns `k` distinct members of `pop`) appear as hypotheses
on the oracles where a theorem needs them.
-/

namespace ADBench

abbrev Row := List ℚ
abbrev Mat := List Row

/-- Number of columns of a matrix.  numpy tracks the shape explicitly; in the
list-of-rows embedding we read it off the first row (0 for an empty matrix). -/
def ncols (X : Mat) : ℕ := (X.headD []).length

/-- Column `j` of `X`, as in `X[:, j]`. -/
def col (X : Mat) (j : ℕ) : List ℚ := X.map (fun r => r.getD j 0)

/-- `np.min` over a 1-D array (only meaningful on nonempty input). -/
def listMin : List ℚ → ℚ
  | [] => 0
  | a :: l => l.foldl min a

/-- `np.max` over a 1-D array (only meaningful on nonempty input). -/
def listMax : List ℚ → ℚ
  | [] => 0
  | a :: l => l.foldl max a

/-- Python's `int()` conversion on a rational: truncation toward zero. -/
def pyInt (q : ℚ) : ℤ := if 0 ≤ q then ⌊q⌋ else ⌈q⌉

/-- `np.argmin`: index of the first occurrence of the minimum value. -/
def npArgmin : List ℚ → ℕ
  | [] => 0
  | [_] => 0
  | a :: b :: l => if listMin (b :: l) < a then npArgmin (b :: l) + 1 else 0

/-- `np.where(y == v)[0]`: the (sorted, duplicate-free) indices where `y`
takes the value `v`. -/
def idxWhere (y : List ℕ) (v : ℕ) : List ℕ :=
  (List.range y.length).filter (fun i => decide (y.getD i 0 = v))

/-- Fancy-index assignment `y[idx] = v`, carrying the running position. -/
def setAllFrom (idx : List ℕ) (v : ℕ) : ℕ → List ℕ → List ℕ
  | _, [] => []
  | i, a :: l => (if i ∈ idx then v else a) :: setAllFrom idx v (i + 1) l

/-- Fancy-index assignment `y[idx] = v`. -/
def setAll (y idx : List ℕ) (v : ℕ) : List ℕ := setAllFrom idx v 0 y

/-- Label flips `y[idx] = 1 - y[idx]`, carrying the running position. -/
def flipAt (idx : List ℕ) : ℕ → List ℕ → List ℕ
  | _, [] => []
  | i, a :: l => (if i ∈ idx then 1 - a else a) :: flipAt idx (i + 1) l

/-- The four values of `realistic_synthetic_mode` that
`generate_realistic_synthetic` accepts (any other value raises
`NotImplementedError`, hence an inductive type).  `local` is a Lean keyword,
so that constructor is named `loc`. -/
inductive RSMode
  | loc
  | cluster
  | global
  | dependency
deriving DecidableEq

/-- Interface of `sklearn.mixture.GaussianMixture` as the code uses it:
`GaussianMixture(n_components, random_state).fit(X)` (the seed is fixed, so
fitting is a function of the data and the component count), `bic(X)`,
`sample(n)`, and the in-place rescalings of `covariances_` / `means_`. -/
structure GMLib (M : Type) where
  fit : Mat → ℕ → M
  bic : M → Mat → ℚ
  sample : M → ℕ → Mat
  scaleCov : ℚ → M → M
  scaleMean : ℚ → M → M

/-- Interface of `copulas.multivariate.VineCopula` as used: `fit` then
`sample(n)`. -/
structure CopulaLib (C : Type) where
  fit : Mat → C
  sample : C → ℕ → Mat

/-- Interface of `copulas.univariate.GaussianKDE` as used: `fit` on one
feature column then `sample(n)`. -/
structure KdeLib (K : Type) where
  fit : List ℚ → K
  sample : K → ℕ → List ℚ

/-- The stochastic collaborators consumed by one
`generate_realistic_synthetic` call: the three model libraries, the
`np.random.choice` draw of 50 feature indices (dependency mode), and
`np.random.uniform(low, high, size)` (global mode, indexed by the loop
iteration that consumes it). -/
structure SynOracles (M C K : Type) where
  gm : GMLib M
  cop : CopulaLib C
  kde : KdeLib K
  colChoice : ℕ → List ℕ
  uniform : ℕ → ℚ → ℚ → ℕ → List ℚ

/-- `pts_n = len(np.where(y == 0)[0])`. -/
def pts_n (y : List ℕ) : ℕ := (y.filter (fun l => decide (l = 0))).length

/-- `pts_a = len(np.where(y == 1)[0])`. -/
def pts_a (y : List ℕ) : ℕ := (y.filter (fun l => decide (l = 1))).length

/-- `X = X[y == 0]`: only the normal rows are kept for model fitting. -/
def normalRows (X : Mat) (y : List ℕ) : Mat :=
  ((X.zip y).filter (fun p => decide (p.2 = 0))).map Prod.fst

/-- `n_components_list = list(np.arange(1, 10))`. -/
def n_components_list : List ℕ := [1, 2, 3, 4, 5, 6, 7, 8, 9]

/-- `metric_list`: the BIC of the mixture fit at each candidate component
count, in index order, with no early termination. -/
def metric_list {M : Type} (g : GMLib M) (Xn : Mat) : List ℚ :=
  n_components_list.map (fun k => g.bic (g.fit Xn k) Xn)

/-- `best_n_components = n_components_list[np.argmin(metric_list)]`. -/
def best_n_components {M : Type} (g : GMLib M) (Xn : Mat) : ℕ :=
  n_components_list.getD (npArgmin (metric_list g Xn)) 1

/-- Dependency mode's feature subsampling: if there are more than 50
columns, keep the 50 randomly chosen ones. -/
def depX {M C K : Type} (o : SynOracles M C K) (Xn : Mat) : Mat :=
  if 50 < ncols Xn then Xn.map (fun r => (o.colChoice (ncols Xn)).map (fun j => r.getD j 0))
  else Xn

/-- `np.array(list_of_columns).T`: the row count is the (common) column
length, read off the first column; an empty column list gives no rows. -/
def transposeCols (cols : Mat) : Mat :=
  match cols with
  | [] => []
  | c :: _ => (List.range c.length).map (fun j => cols.map (fun cl => cl.getD j 0))

/-- The `X_synthetic_normal` population: a GMM sample of `pts_n` rows for
local / cluster / global (from the refit at `best_n_components`), a vine
copula sample for dependency. -/
def X_synthetic_normal {M C K : Type} (o : SynOracles M C K) (X : Mat) (y : List ℕ)
    (mode : RSMode) : Mat :=
  match mode with
  | .dependency => o.cop.sample (o.cop.fit (depX o (normalRows X y))) (pts_n y)
  | _ =>
      o.gm.sample (o.gm.fit (normalRows X y) (best_n_components o.gm (normalRows X y)))
        (pts_n y)

/-- The `X_synthetic_anomalies` population: a sample from the
covariance-scaled (local) or mean-scaled (cluster) mixture, per-feature
uniform draws over the synthetic-normal min/max scaled by `1 + percentage`
(global), or independent per-feature KDE draws (dependency). -/
def X_synthetic_anomalies {M C K : Type} (o : SynOracles M C K) (X : Mat) (y : List ℕ)
    (mode : RSMode) (alpha percentage : ℚ) : Mat :=
  match mode with
  | .loc =>
      o.gm.sample
        (o.gm.scaleCov alpha (o.gm.fit (normalRows X y) (best_n_components o.gm (normalRows X y))))
        (pts_a y)
  | .cluster =>
      o.gm.sample
        (o.gm.scaleMean alpha (o.gm.fit (normalRows X y) (best_n_components o.gm (normalRows X y))))
        (pts_a y)
  | .global =>
      transposeCols ((List.range (ncols (X_synthetic_normal o X y .global))).map (fun i =>
        o.uniform i (listMin (col (X_synthetic_normal o X y .global) i) * (1 + percentage))
          (listMax (col (X_synthetic_normal o X y .global) i) * (1 + percentage)) (pts_a y)))
  | .dependency =>
      (List.range (pts_a y)).map (fun j =>
        (List.range (ncols (depX o (normalRows X y)))).map (fun i =>
          (o.kde.sample (o.kde.fit (col (depX o (normalRows X y)) i)) (pts_a y)).getD j 0))

/-- `generate_realistic_synthetic`: concatenate the synthetic normal rows
with the synthetic anomaly rows and emit a 0-block / 1-block label vector
sized by the two blocks. -/
def generate_realistic_synthetic {M C K : Type} (o : SynOracles M C K) (X : Mat) (y : List ℕ)
    (mode : RSMode) (alpha percentage : ℚ) : Mat × List ℕ :=
  (X_synthetic_normal o X y mode ++ X_synthetic_anomalies o X y mode alpha percentage,
   List.replicate (X_synthetic_normal o X y mode).length 0
     ++ List.replicate (X_synthetic_anomalies o X y mode alpha percentage).length 1)

/-- `add_duplicated_anomalies`: identity for `duplicate_times <= 1`;
otherwise resample the anomaly indices with replacement (the `choice`
oracle), append to the normal indices, shuffle, and re-index both arrays. -/
def add_duplicated_anomalies (choice : List ℕ → ℕ → List ℕ) (shuffle : List ℕ → List ℕ)
    (X : Mat) (y : List ℕ) (duplicate_times : ℕ) : Mat × List ℕ :=
  if duplicate_times ≤ 1 then (X, y)
  else
    let idx_a := choice (idxWhere y 1) ((idxWhere y 1).length * duplicate_times)
    let idx := shuffle (idxWhere y 0 ++ idx_a)
    (idx.map (fun i => X.getD i []), idx.map (fun i => y.getD i 0))

/-- The noise columns built by `add_irrelevant_features`: for each of the
`noise_dim` iterations, pick a source column (the `pickCol` oracle) and draw
a uniform column over its observed min/max. -/
def noiseColumns (pickCol : ℕ → ℕ) (uniform : ℕ → ℚ → ℚ → ℕ → List ℚ)
    (X : Mat) (noise_dim : ℕ) : Mat :=
  (List.range noise_dim).map (fun i =>
    uniform i (listMin (col X (pickCol i))) (listMax (col X (pickCol i))) X.length)

/-- `np.concatenate((X, X_noise), axis=1)`: append to row `i` the `i`-th
entry of every noise column. -/
def appendNoiseFrom (xnoise : Mat) : ℕ → Mat → Mat
  | _, [] => []
  | i, r :: rest => (r ++ xnoise.map (fun c => c.getD i 0)) :: appendNoiseFrom xnoise (i + 1) rest

/-- `add_irrelevant_features`: identity at `noise_ratio == 0`; otherwise
compute `noise_dim = int(noise_ratio / (1 - noise_ratio) * d)` and, only
when it is positive, append `noise_dim` uniform noise columns and shuffle
the column order (the `permute` oracle). -/
def add_irrelevant_features (pickCol : ℕ → ℕ) (uniform : ℕ → ℚ → ℚ → ℕ → List ℚ)
    (permute : ℕ → List ℕ) (X : Mat) (y : List ℕ) (noise_ratio : ℚ) : Mat × List ℕ :=
  if noise_ratio = 0 then (X, y)
  else
    let noise_dim := (pyInt (noise_ratio / (1 - noise_ratio) * (ncols X : ℚ))).toNat
    if 0 < noise_dim then
      let X2 := appendNoiseFrom (noiseColumns pickCol uniform X noise_dim) 0 X
      let perm := permute (ncols X + noise_dim)
      (X2.map (fun row => perm.map (fun j => row.getD j 0)), y)
    else (X, y)

/-- `add_label_contamination`: identity at `noise_ratio == 0`; otherwise
flip the labels at `int(len(y) * noise_ratio)` row indices drawn without
replacement (the `choice` oracle). -/
def add_label_contamination (choice : ℕ → ℕ → List ℕ) (X : Mat) (y : List ℕ)
    (noise_ratio : ℚ) : Mat × List ℕ :=
  if noise_ratio = 0 then (X, y)
  else (X, flipAt (choice y.length ((pyInt ((y.length : ℚ) * noise_ratio)).toNat)) 0 y)

/-- The `la` parameter: a float fraction of anomalies or an absolute count. -/
inductive La
  | ratio (f : ℚ)
  | count (n : ℕ)
deriving DecidableEq

/-- The labeled-anomaly target count of lines 364-373: `ceil(la * n)` for a
float with `at_least_one_labeled`, `int(la * n)` for a float without it, and
`la` itself for an integer. -/
def n_labeled_target (la : La) (at_least_one_labeled : Bool) (nAnom : ℕ) : ℕ :=
  match la with
  | .ratio f =>
      if at_least_one_labeled then (⌈f * (nAnom : ℚ)⌉).toNat
      else (pyInt (f * (nAnom : ℚ))).toNat
  | .count n => n

def insufficientMsg : String :=
  "the number of labeled anomalies are greater than the total anomalies"

/-- Lines 364-375: draw the labeled-anomaly index set from `idx_anomaly`
without replacement (the `choice` oracle); an integer `la` larger than the
anomaly count raises. -/
def idx_labeled_anomaly (choice : List ℕ → ℕ → List ℕ) (idx_anomaly : List ℕ)
    (la : La) (at_least_one_labeled : Bool) : Except String (List ℕ) :=
  match la with
  | .ratio f =>
      Except.ok
        (choice idx_anomaly (n_labeled_target (.ratio f) at_least_one_labeled idx_anomaly.length))
  | .count n =>
      if idx_anomaly.length < n then Except.error insufficientMsg
      else Except.ok (choice idx_anomaly n)

/-- The `noise_type` values the orchestrator dispatches on. -/
inductive NoiseType
  | duplicated_anomalies
  | irrelevant_features
  | label_contamination
  | anomaly_contamination
deriving DecidableEq

/-- The record returned by `generator`. -/
structure GenResult where
  X_train : Mat
  y_train : List ℕ
  X_test : Mat
  y_test : List ℕ
deriving DecidableEq

/-- Lines 388-389: unlabeled rows get label 0, labeled anomalies label 1. -/
def partition_labels (y idxU idxL : List ℕ) : List ℕ :=
  setAll (setAll y idxU 0) idxL 1

/-- The post-split portion of `generator` (lines 344-391): the split-aware
noise application, MinMax scaling (the external `scale` oracle, fit on the
train features), and the label partitioning.  `prune` stands for the
`remove_anomaly_contamination` hook, which is referenced but not defined in
the source. -/
def generator_post_split (dupChoice : List ℕ → ℕ → List ℕ) (dupShuffle : List ℕ → List ℕ)
    (contamChoice : ℕ → ℕ → List ℕ) (scale : Mat → Mat → Mat)
    (laChoice : List ℕ → ℕ → List ℕ) (prune : List ℕ → ℚ → List ℕ)
    (noise_type : Option NoiseType) (la : La) (at_least_one_labeled : Bool)
    (duplicate_times : ℕ) (contam_ratio noise_ratio : ℚ)
    (X_train : Mat) (y_train : List ℕ) (X_test : Mat) (y_test : List ℕ) :
    Except String GenResult :=
  let tr :=
    if noise_type = some .duplicated_anomalies then
      add_duplicated_anomalies dupChoice dupShuffle X_train y_train duplicate_times
    else if noise_type = some .label_contamination then
      add_label_contamination contamChoice X_train y_train noise_ratio
    else (X_train, y_train)
  let te :=
    if noise_type = some .duplicated_anomalies then
      add_duplicated_anomalies dupChoice dupShuffle X_test y_test duplicate_times
    else (X_test, y_test)
  let idx_normal := idxWhere tr.2 0
  let idx_anomaly := idxWhere tr.2 1
  match idx_labeled_anomaly laChoice idx_anomaly la at_least_one_labeled with
  | .error e => .error e
  | .ok idxLab =>
      let idxUnlabAnom0 := idx_anomaly.filter (fun i => decide (i ∉ idxLab))
      let idxUnlabAnom :=
        if noise_type = some .anomaly_contamination then prune idxUnlabAnom0 contam_ratio
        else idxUnlabAnom0
      .ok ⟨scale tr.1 tr.1, partition_labels tr.2 (idx_normal ++ idxUnlabAnom) idxLab,
           scale tr.1 te.1, te.2⟩

/-- The row-alignment / binary-labels invariant of the pipeline. -/
def rowAligned (X : Mat) (y : List ℕ) : Prop :=
  X.length = y.length ∧ ∀ l ∈ y, l = 0 ∨ l = 1

/-- A concrete well-behaved oracle set used to witness the theorems. -/
def oW : SynOracles Unit Unit Unit where
  gm := { fit := fun _ _ => (), bic := fun _ _ => 0,
          sample := fun _ n => List.replicate n [0],
          scaleCov := fun _ _ => (), scaleMean := fun _ _ => () }
  cop := { fit := fun _ => (), sample := fun _ n => List.replicate n [0] }
  kde := { fit := fun _ => (), sample := fun _ n => List.replicate n 0 }
  colChoice := fun _ => []
  uniform := fun _ lo _ n => List.replicate n lo

/-- An oracle set whose mixture sampler answers a nonempty matrix when asked
for zero samples: it exposes that `generate_realistic_synthetic` consults
the sampler even when the target count is 0. -/
def oC4 : SynOracles Unit Unit Unit where
  gm := { fit := fun _ _ => (), bic := fun _ _ => 0,
          sample := fun _ n => if n = 0 then [[42]] else List.replicate n [0],
          scaleCov := fun _ _ => (), scaleMean := fun _ _ => () }
  cop := { fit := fun _ => (), sample := fun _ n => List.replicate n [0] }
  kde := { fit := fun _ => (), sample := fun _ n => List.replicate n 0 }
  colChoice := fun _ => []
  uniform := fun _ lo _ n => List.replicate n lo

/-- An oracle set for the global-mode counterexample: the fitted mixture
yields the one-feature normal population with values -1 and 1, and the
uniform draw answers 0, which lies inside `[low, high) = [-1.1, 1.1)`. -/
def oC5 : SynOracles Unit Unit Unit where
  gm := { fit := fun _ _ => (), bic := fun _ _ => 0,
          sample := fun _ n => if n = 2 then [[-1], [1]] else List.replicate n [0],
          scaleCov := fun _ _ => (), scaleMean := fun _ _ => () }
  cop := { fit := fun _ => (), sample := fun _ n => List.replicate n [0] }
  kde := { fit := fun _ => (), sample := fun _ n => List.replicate n 0 }
  colChoice := fun _ => []
  uniform := fun _ _ _ n => List.replicate n 0

/-- A concrete input matrix used by the witnesses: three one-feature rows. -/
def XW : Mat := [[1], [2], [3]]

/-- Concrete labels for `XW`: two normal rows and one anomaly. -/
def yW : List ℕ := [0, 0, 1]

section helperLemmas

lemma foldl_min_le_init (l : List ℚ) : ∀ b : ℚ, l.foldl min b ≤ b := by
  induction l with
  | nil => intro b; simp
  | cons a l ih =>
    intro b
    calc (a :: l).foldl min b = l.foldl min (min b a) := by simp
    _ ≤ min b a := ih (min b a)
    _ ≤ b := min_le_left _ _

lemma foldl_min_le_mem (l : List ℚ) : ∀ (b x : ℚ), x ∈ l → l.foldl min b ≤ x := by
  induction l with
  | nil => intro b x hx; cases hx
  | cons a l ih =>
    intro b x hx
    rcases List.mem_cons.mp hx with h | h
    · subst h
      calc (x :: l).foldl min b = l.foldl min (min b x) := by simp
      _ ≤ min b x := foldl_min_le_init l (min b x)
      _ ≤ x := min_le_right _ _
    · exact ih (min b a) x h

lemma listMin_le {l : List ℚ} {x : ℚ} (hx : x ∈ l) : listMin l ≤ x := by
  cases l with
  | nil => cases hx
  | cons a l =>
    rcases List.mem_cons.mp hx with h | h
    · subst h; exact foldl_min_le_init l x
    · exact foldl_min_le_mem l a x h

lemma init_le_foldl_max (l : List ℚ) : ∀ b : ℚ, b ≤ l.foldl max b := by
  induction l with
  | nil => intro b; simp
  | cons a l ih =>
    intro b
    calc b ≤ max b a := le_max_left _ _
    _ ≤ l.foldl max (max b a) := ih (max b a)
    _ = (a :: l).foldl max b := by simp

lemma mem_le_foldl_max (l : List ℚ) : ∀ (b x : ℚ), x ∈ l → x ≤ l.foldl max b := by
  induction l with
  | nil => intro b x hx; cases hx
  | cons a l ih =>
    intro b x hx
    rcases List.mem_cons.mp hx with h | h
    · subst h
      calc x ≤ max b x := le_max_right _ _
      _ ≤ l.foldl max (max b x) := init_le_foldl_max l (max b x)
      _ = (x :: l).foldl max b := by simp
    · exact ih (max b a) x h

lemma le_listMax {l : List ℚ} {x : ℚ} (hx : x ∈ l) : x ≤ listMax l := by
  cases l with
  | nil => cases hx
  | cons a l =>
    rcases List.mem_cons.mp hx with h | h
    · subst h; exact init_le_foldl_max l x
    · exact mem_le_foldl_max l a x h

lemma listMin_le_listMax {l : List ℚ} (h : l ≠ []) : listMin l ≤ listMax l := by
  cases l with
  | nil => exact absurd rfl h
  | cons a l => exact le_trans (listMin_le (List.mem_cons_self a l)) (le_listMax (List.mem_cons_self a l))

lemma getD_mem {α : Type} : ∀ (l : List α) (i : ℕ) (d : α), i < l.length → l.getD i d ∈ l := by
  intro l
  induction l with
  | nil => intro i d h; simp at h
  | cons a l ih =>
    intro i d h
    cases i with
    | zero => simp
    | succ j =>
      have : l.getD j d ∈ l := ih j d (by simpa using Nat.lt_of_succ_lt_succ h)
      simpa using Or.inr this

lemma getD_mem_or_default {α : Type} : ∀ (l : List α) (i : ℕ) (d : α), l.getD i d ∈ l ∨ l.getD i d = d := by
  intro l
  induction l with
  | nil => intro i d; right; cases i <;> rfl
  | cons a l ih =>
    intro i d
    cases i with
    | zero => left; simp
    | succ j =>
      rcases ih j d with h | h
      · left; simpa using Or.inr h
      · right; simpa using h

lemma pyInt_eq_floor {q : ℚ} (h : 0 ≤ q) : pyInt q = ⌊q⌋ := by
  simp [pyInt, h]

lemma listMin_cons_cons (a b : ℚ) (l : List ℚ) :
    listMin (a :: b :: l) = min a (listMin (b :: l)) := by
  show (b :: l).foldl min a = min a (l.foldl min b)
  simp only [List.foldl_cons]
  have key : ∀ (t : List ℚ) (x y : ℚ), t.foldl min (min x y) = min x (t.foldl min y) := by
    intro t
    induction t with
    | nil => intro x y; rfl
    | cons c t ih =>
      intro x y
      simp only [List.foldl_cons]
      rw [min_assoc, ih]
  exact key l a b

lemma npArgmin_lt_length : ∀ (l : List ℚ), l ≠ [] → npArgmin l < l.length := by
  intro l
  induction l with
  | nil => intro h; exact absurd rfl h
  | cons a l ih =>
    intro _
    cases l with
    | nil => simp [npArgmin]
    | cons b t =>
      by_cases hlt : listMin (b :: t) < a
      · have h2 : npArgmin (b :: t) < t.length + 1 := by simpa using ih (by simp)
        simp only [npArgmin, if_pos hlt, List.length_cons]
        omega
      · simp [npArgmin, hlt]

lemma npArgmin_getD : ∀ (l : List ℚ), l ≠ [] → l.getD (npArgmin l) 0 = listMin l := by
  intro l
  induction l with
  | nil => intro h; exact absurd rfl h
  | cons a l ih =>
    intro _
    cases l with
    | nil => rfl
    | cons b t =>
      by_cases hlt : listMin (b :: t) < a
      · have h1 : (b :: t).getD (npArgmin (b :: t)) 0 = listMin (b :: t) := ih (by simp)
        simp only [npArgmin, if_pos hlt, List.getD_cons_succ, h1, listMin_cons_cons]
        exact (min_eq_right (le_of_lt hlt)).symm
      · push_neg at hlt
        simp only [npArgmin, if_neg (not_lt.mpr hlt), List.getD_cons_zero, listMin_cons_cons]
        exact (min_eq_left hlt).symm

lemma npArgmin_le {l : List ℚ} {j : ℕ} (hj : j < l.length) :
    l.getD (npArgmin l) 0 ≤ l.getD j 0 := by
  have hne : l ≠ [] := by intro h; subst h; simp at hj
  rw [npArgmin_getD l hne]
  exact listMin_le (getD_mem l j 0 hj)

lemma npArgmin_first : ∀ (l : List ℚ) (j : ℕ), j < npArgmin l →
    l.getD (npArgmin l) 0 < l.getD j 0 := by
  intro l
  induction l with
  | nil => intro j h; simp [npArgmin] at h
  | cons a l ih =>
    intro j hj
    cases l with
    | nil => simp [npArgmin] at hj
    | cons b t =>
      by_cases hlt : listMin (b :: t) < a
      · simp only [npArgmin, if_pos hlt] at hj
        have hmin : (a :: b :: t).getD (npArgmin (a :: b :: t)) 0 = listMin (a :: b :: t) :=
          npArgmin_getD _ (by simp)
        rw [hmin, listMin_cons_cons, min_eq_right (le_of_lt hlt)]
        cases j with
        | zero => simpa using hlt
        | succ j' =>
          have hj' : j' < npArgmin (b :: t) := by omega
          have := ih j' hj'
          rw [npArgmin_getD _ (by simp)] at this
          simpa using this
      · simp [npArgmin, hlt] at hj

lemma length_setAllFrom (idx : List ℕ) (v : ℕ) :
    ∀ (i : ℕ) (l : List ℕ), (setAllFrom idx v i l).length = l.length := by
  intro i l
  induction l generalizing i with
  | nil => rfl
  | cons a l ih => simp [setAllFrom, ih]

lemma mem_setAllFrom (idx : List ℕ) (v : ℕ) :
    ∀ (i : ℕ) (l : List ℕ) (x : ℕ), x ∈ setAllFrom idx v i l → x = v ∨ x ∈ l := by
  intro i l
  induction l generalizing i with
  | nil => intro x hx; cases hx
  | cons a l ih =>
    intro x hx
    rcases List.mem_cons.mp hx with h | h
    · by_cases hmem : i ∈ idx
      · simp [hmem] at h; exact Or.inl h
      · simp [hmem] at h; exact Or.inr (by simp [h])
    · rcases ih (i + 1) x h with h' | h'
      · exact Or.inl h'
      · exact Or.inr (by simp [h'])

lemma length_setAll (y idx : List ℕ) (v : ℕ) : (setAll y idx v).length = y.length :=
  length_setAllFrom idx v 0 y

lemma mem_setAll {y idx : List ℕ} {v x : ℕ} (hx : x ∈ setAll y idx v) : x = v ∨ x ∈ y :=
  mem_setAllFrom idx v 0 y x hx

lemma length_flipAt (idx : List ℕ) :
    ∀ (i : ℕ) (l : List ℕ), (flipAt idx i l).length = l.length := by
  intro i l
  induction l generalizing i with
  | nil => rfl
  | cons a l ih => simp [flipAt, ih]

lemma mem_flipAt (idx : List ℕ) :
    ∀ (i : ℕ) (l : List ℕ) (x : ℕ), x ∈ flipAt idx i l → (∃ a ∈ l, x = 1 - a) ∨ x ∈ l := by
  intro i l
  induction l generalizing i with
  | nil => intro x hx; cases hx
  | cons a l ih =>
    intro x hx
    rcases List.mem_cons.mp hx with h | h
    · by_cases hmem : i ∈ idx
      · simp [hmem] at h; exact Or.inl ⟨a, by simp, h⟩
      · simp [hmem] at h; exact Or.inr (by simp [h])
    · rcases ih (i + 1) x h with ⟨a', ha', hx'⟩ | h'
      · exact Or.inl ⟨a', by simp [ha'], hx'⟩
      · exact Or.inr (by simp [h'])

end helperLemmas

section embeddingLemmas

variable {M C K : Type}

lemma length_X_synthetic_normal (o : SynOracles M C K) (X : Mat) (y : List ℕ) (mode : RSMode)
    (hgs : ∀ (m : M) (n : ℕ), (o.gm.sample m n).length = n)
    (hcs : ∀ (c : C) (n : ℕ), (o.cop.sample c n).length = n) :
    (X_synthetic_normal o X y mode).length = pts_n y := by
  cases mode <;> simp [X_synthetic_normal, hgs, hcs]

lemma transposeCols_map_range_length (g : ℕ → List ℚ) (D : ℕ) (hD : 0 < D) :
    (transposeCols ((List.range D).map g)).length = (g 0).length := by
  obtain ⟨D', rfl⟩ : ∃ D', D = D' + 1 := ⟨D - 1, by omega⟩
  rw [List.range_succ_eq_map]
  simp [transposeCols]

lemma mem_transposeCols {cols : Mat} {row : Row} (h : row ∈ transposeCols cols) :
    ∃ j, j < (cols.headD []).length ∧ row = cols.map (fun cl => cl.getD j 0) := by
  cases cols with
  | nil => simp [transposeCols] at h
  | cons c rest =>
    simp only [transposeCols, List.mem_map, List.mem_range] at h
    obtain ⟨j, hj, hrow⟩ := h
    exact ⟨j, by simpa using hj, hrow.symm⟩

lemma length_X_synthetic_anomalies (o : SynOracles M C K) (X : Mat) (y : List ℕ)
    (mode : RSMode) (alpha percentage : ℚ)
    (hgs : ∀ (m : M) (n : ℕ), (o.gm.sample m n).length = n)
    (hus : ∀ (i : ℕ) (lo hi : ℚ) (n : ℕ), (o.uniform i lo hi n).length = n)
    (hglob : mode = RSMode.global → 0 < ncols (X_synthetic_normal o X y RSMode.global)) :
    (X_synthetic_anomalies o X y mode alpha percentage).length = pts_a y := by
  cases mode with
  | loc => simp [X_synthetic_anomalies, hgs]
  | cluster => simp [X_synthetic_anomalies, hgs]
  | dependency => simp [X_synthetic_anomalies]
  | global =>
    have hD := hglob rfl
    simp only [X_synthetic_anomalies]
    rw [transposeCols_map_range_length _ _ hD]
    simp [hus]

lemma length_appendNoiseFrom (xnoise : Mat) :
    ∀ (i : ℕ) (X : Mat), (appendNoiseFrom xnoise i X).length = X.length := by
  intro i X
  induction X generalizing i with
  | nil => rfl
  | cons r rest ih => simp [appendNoiseFrom, ih]

end embeddingLemmas

/-- C6: For the local, cluster and global modes, model selection fits a
Gaussian mixture at every component count 1 through 9 and records each BIC
in index order with no early termination, selects the component count of
the first minimum of the BIC list, and the synthetic normal population is
sampled from a mixture refit at that best component count. -/
theorem c6_bic_model_selection {M C K : Type} (o : SynOracles M C K) (X : Mat) (y : List ℕ)
    (mode : RSMode)
    (hm : mode = RSMode.loc ∨ mode = RSMode.cluster ∨ mode = RSMode.global) :
    (metric_list o.gm (normalRows X y)).length = 9 ∧
    (∀ k, k < 9 → (metric_list o.gm (normalRows X y)).getD k 0
        = o.gm.bic (o.gm.fit (normalRows X y) (k + 1)) (normalRows X y)) ∧
    best_n_components o.gm (normalRows X y)
      = npArgmin (metric_list o.gm (normalRows X y)) + 1 ∧
    (∀ k, k < 9 →
      (metric_list o.gm (normalRows X y)).getD
          (best_n_components o.gm (normalRows X y) - 1) 0
        ≤ (metric_list o.gm (normalRows X y)).getD k 0) ∧
    (∀ k, k < best_n_components o.gm (normalRows X y) - 1 →
      (metric_list o.gm (normalRows X y)).getD
          (best_n_components o.gm (normalRows X y) - 1) 0
        < (metric_list o.gm (normalRows X y)).getD k 0) ∧
    X_synthetic_normal o X y mode
      = o.gm.sample (o.gm.fit (normalRows X y) (best_n_components o.gm (normalRows X y)))
          (pts_n y) := by
  have hlen : (metric_list o.gm (normalRows X y)).length = 9 := by
    simp [metric_list, n_components_list]
  have hne : metric_list o.gm (normalRows X y) ≠ [] := by
    intro h; rw [h] at hlen; simp at hlen
  have hargmin : npArgmin (metric_list o.gm (normalRows X y)) < 9 := by
    have := npArgmin_lt_length _ hne
    omega
  have hgetD : ∀ i, i < 9 → n_components_list.getD i 1 = i + 1 := by decide
  have hbest : best_n_components o.gm (normalRows X y)
      = npArgmin (metric_list o.gm (normalRows X y)) + 1 := by
    unfold best_n_components
    exact hgetD _ hargmin
  refine ⟨hlen, ?_, hbest, ?_, ?_, ?_⟩
  · intro k hk
    interval_cases k <;> rfl
  · intro k hk
    rw [hbest]
    simpa using npArgmin_le (l := metric_list o.gm (normalRows X y)) (j := k) (by omega)
  · intro k hk
    rw [hbest] at hk ⊢
    simpa using npArgmin_first (metric_list o.gm (normalRows X y)) k (by omega)
  · rcases hm with h | h | h <;> subst h <;> rfl

/-- Witness for C6 at a concrete oracle, input and mode. -/
theorem c6_witness :
    (metric_list oW.gm (normalRows XW yW)).length = 9 ∧
    X_synthetic_normal oW XW yW RSMode.loc
      = oW.gm.sample (oW.gm.fit (normalRows XW yW) (best_n_components oW.gm (normalRows XW yW)))
          (pts_n yW) :=
  ⟨(c6_bic_model_selection oW XW yW RSMode.loc (Or.inl rfl)).1,
   (c6_bic_model_selection oW XW yW RSMode.loc (Or.inl rfl)).2.2.2.2.2⟩

/-- C2: With float `la = f`, the partitioner selects exactly
`ceil(f * |train anomalies|)` labeled-anomaly indices when
`at_least_one_labeled` holds and exactly `floor(f * |train anomalies|)`
otherwise, without replacement from the true-anomaly indices; under the
ceiling variant at least one index is selected whenever anomalies exist and
`f > 0`. -/
theorem c2_float_la_partition (choice : List ℕ → ℕ → List ℕ) (idxA : List ℕ) (f : ℚ) (b : Bool)
    (hA : idxA.Nodup)
    (hch : ∀ (pop : List ℕ) (k : ℕ), k ≤ pop.length →
      (choice pop k).length = k ∧ (pop.Nodup → (choice pop k).Nodup) ∧
        ∀ x ∈ choice pop k, x ∈ pop)
    (hf0 : 0 ≤ f) (hf1 : f ≤ 1) :
    ∃ l, idx_labeled_anomaly choice idxA (La.ratio f) b = Except.ok l ∧
      (b = true → (l.length : ℤ) = ⌈f * (idxA.length : ℚ)⌉) ∧
      (b = false → (l.length : ℤ) = ⌊f * (idxA.length : ℚ)⌋) ∧
      l.Nodup ∧ (∀ x ∈ l, x ∈ idxA) ∧
      (b = true → 0 < f → idxA ≠ [] → 1 ≤ l.length) := by
  have hn0 : (0 : ℚ) ≤ (idxA.length : ℚ) := Nat.cast_nonneg _
  have hfn0 : (0 : ℚ) ≤ f * (idxA.length : ℚ) := mul_nonneg hf0 hn0
  have hfn1 : f * (idxA.length : ℚ) ≤ (idxA.length : ℚ) := by
    calc f * (idxA.length : ℚ) ≤ 1 * (idxA.length : ℚ) :=
          mul_le_mul_of_nonneg_right hf1 hn0
    _ = (idxA.length : ℚ) := one_mul _
  have hceil : ⌈f * (idxA.length : ℚ)⌉ ≤ (idxA.length : ℤ) :=
    Int.ceil_le.mpr (by exact_mod_cast hfn1)
  have hceil0 : 0 ≤ ⌈f * (idxA.length : ℚ)⌉ := Int.ceil_nonneg hfn0
  have hfloor : ⌊f * (idxA.length : ℚ)⌋ ≤ (idxA.length : ℤ) := by
    calc ⌊f * (idxA.length : ℚ)⌋ ≤ ⌊(idxA.length : ℚ)⌋ := Int.floor_le_floor hfn1
    _ = (idxA.length : ℤ) := Int.floor_natCast _
  have hfloor0 : 0 ≤ ⌊f * (idxA.length : ℚ)⌋ := Int.floor_nonneg.mpr hfn0
  have hk : n_labeled_target (La.ratio f) b idxA.length ≤ idxA.length := by
    cases b with
    | true =>
      simpa [n_labeled_target] using Int.toNat_le.mpr hceil
    | false =>
      simpa [n_labeled_target, pyInt_eq_floor hfn0] using Int.toNat_le.mpr hfloor
  obtain ⟨hlen, hnd, hsub⟩ := hch idxA _ hk
  refine ⟨choice idxA (n_labeled_target (La.ratio f) b idxA.length), rfl, ?_, ?_, hnd hA, hsub, ?_⟩
  · intro hb
    subst hb
    rw [hlen]
    simpa [n_labeled_target] using Int.toNat_of_nonneg hceil0
  · intro hb
    subst hb
    rw [hlen]
    simpa [n_labeled_target, pyInt_eq_floor hfn0] using Int.toNat_of_nonneg hfloor0
  · intro hb hf hne
    subst hb
    have hlpos : 0 < idxA.length := List.length_pos.mpr hne
    have hqpos : (0 : ℚ) < f * (idxA.length : ℚ) :=
      mul_pos hf (by exact_mod_cast hlpos)
    have hcpos : 0 < ⌈f * (idxA.length : ℚ)⌉ := Int.ceil_pos.mpr hqpos
    have htarget : 1 ≤ n_labeled_target (La.ratio f) true idxA.length := by
      show 1 ≤ (⌈f * (idxA.length : ℚ)⌉).toNat
      omega
    rw [hlen]
    exact htarget

/-- Witness for C2: a concrete choice oracle (`take`), three anomalies and
`f = 1/10` with the ceiling variant. -/
theorem c2_witness :
    ∃ l, idx_labeled_anomaly (fun pop k => pop.take k) [3, 5, 7] (La.ratio (1 / 10)) true
        = Except.ok l ∧
      (true = true → (l.length : ℤ) = ⌈(1 / 10 : ℚ) * (([3, 5, 7] : List ℕ).length : ℚ)⌉) ∧
      (true = false → (l.length : ℤ) = ⌊(1 / 10 : ℚ) * (([3, 5, 7] : List ℕ).length : ℚ)⌋) ∧
      l.Nodup ∧ (∀ x ∈ l, x ∈ ([3, 5, 7] : List ℕ)) ∧
      (true = true → 0 < (1 / 10 : ℚ) → ([3, 5, 7] : List ℕ) ≠ [] → 1 ≤ l.length) :=
  c2_float_la_partition (fun pop k => pop.take k) [3, 5, 7] (1 / 10) true (by decide)
    (fun pop k hk =>
      ⟨by simp [List.length_take, Nat.min_eq_left hk],
       fun hnd => List.Nodup.sublist (List.take_sublist k pop) hnd,
       fun x hx => List.take_subset k pop hx⟩)
    (by norm_num) (by norm_num)

/-- C3: With integer `la`, the partitioner fails when `la` exceeds the
number of true anomalies in the training split, and otherwise selects
exactly `la` true-anomaly indices without replacement. -/
theorem c3_int_la_partition (choice : List ℕ → ℕ → List ℕ) (idxA : List ℕ) (n : ℕ) (b : Bool)
    (hA : idxA.Nodup)
    (hch : ∀ (pop : List ℕ) (k : ℕ), k ≤ pop.length →
      (choice pop k).length = k ∧ (pop.Nodup → (choice pop k).Nodup) ∧
        ∀ x ∈ choice pop k, x ∈ pop) :
    (idxA.length < n →
      idx_labeled_anomaly choice idxA (La.count n) b = Except.error insufficientMsg) ∧
    (n ≤ idxA.length →
      ∃ l, idx_labeled_anomaly choice idxA (La.count n) b = Except.ok l ∧
        l.length = n ∧ l.Nodup ∧ ∀ x ∈ l, x ∈ idxA) := by
  constructor
  · intro h
    simp [idx_labeled_anomaly, h]
  · intro h
    obtain ⟨hlen, hnd, hsub⟩ := hch idxA n h
    exact ⟨choice idxA n, by simp [idx_labeled_anomaly, Nat.not_lt.mpr h], hlen, hnd hA, hsub⟩

/-- Witness for C3: `la = 5` with four anomalies fails (the spec scenario);
`la = 2` with four anomalies succeeds with two selected indices. -/
theorem c3_witness :
    idx_labeled_anomaly (fun pop k => pop.take k) [1, 2, 3, 4] (La.count 5) false
        = Except.error insufficientMsg ∧
    (∃ l, idx_labeled_anomaly (fun pop k => pop.take k) [1, 2, 3, 4] (La.count 2) false
        = Except.ok l ∧ l.length = 2 ∧ l.Nodup ∧ ∀ x ∈ l, x ∈ ([1, 2, 3, 4] : List ℕ)) :=
  ⟨(c3_int_la_partition (fun pop k => pop.take k) [1, 2, 3, 4] 5 false (by decide)
      (fun pop k hk =>
        ⟨by simp [List.length_take, Nat.min_eq_left hk],
         fun hnd => List.Nodup.sublist (List.take_sublist k pop) hnd,
         fun x hx => List.take_subset k pop hx⟩)).1 (by decide),
   (c3_int_la_partition (fun pop k => pop.take k) [1, 2, 3, 4] 2 false (by decide)
      (fun pop k hk =>
        ⟨by simp [List.length_take, Nat.min_eq_left hk],
         fun hnd => List.Nodup.sublist (List.take_sublist k pop) hnd,
         fun x hx => List.take_subset k pop hx⟩)).2 (by decide)⟩

/-- C10: When `0 < noise_ratio` but the computed noise dimension
`floor(noise_ratio / (1 - noise_ratio) * d)` is zero,
`add_irrelevant_features` returns `(X, y)` exactly unchanged, for every
choice of the three random oracles (so no noise column is drawn and no
column permutation is performed). -/
theorem c10_zero_noise_dim_identity (X : Mat) (y : List ℕ) (r : ℚ) (hr : 0 < r)
    (hfl : ⌊r / (1 - r) * (ncols X : ℚ)⌋ = 0) :
    ∀ (pickCol : ℕ → ℕ) (uniform : ℕ → ℚ → ℚ → ℕ → List ℚ) (permute : ℕ → List ℕ),
      add_irrelevant_features pickCol uniform permute X y r = (X, y) := by
  intro pc u pm
  have hq0 : (0 : ℚ) ≤ r / (1 - r) * (ncols X : ℚ) := by
    have h := (Int.floor_eq_iff (z := 0)).mp hfl
    simpa using h.1
  have hpy : pyInt (r / (1 - r) * (ncols X : ℚ)) = 0 := by
    rw [pyInt_eq_floor hq0, hfl]
  simp [add_irrelevant_features, hr.ne', hpy]

/-- Witness for C10: three feature columns and `noise_ratio = 1/100` give
noise dimension `floor(3/99) = 0`, so the operator is the identity. -/
theorem c10_witness :
    add_irrelevant_features (fun _ => 0) (fun _ lo _ n => List.replicate n lo)
        (fun n => List.range n) XW yW (1 / 100) = (XW, yW) :=
  c10_zero_noise_dim_identity XW yW (1 / 100) (by norm_num)
    (by norm_num [ncols, XW])
    (fun _ => 0) (fun _ lo _ n => List.replicate n lo) (fun n => List.range n)

/-- C1: For every input and each of the four synthesis modes, the output of
`generate_realistic_synthetic` has `pts_n + pts_a` rows (the normal and
anomaly counts of the input), the synthetic normal rows come first and the
synthetic anomaly rows second, and the label vector is exactly a block of
`pts_n` zeros followed by a block of `pts_a` ones. -/
theorem c1_synthetic_shape {M C K : Type} (o : SynOracles M C K) (X : Mat) (y : List ℕ)
    (mode : RSMode) (alpha percentage : ℚ)
    (hgs : ∀ (m : M) (n : ℕ), (o.gm.sample m n).length = n)
    (hcs : ∀ (c : C) (n : ℕ), (o.cop.sample c n).length = n)
    (hus : ∀ (i : ℕ) (lo hi : ℚ) (n : ℕ), (o.uniform i lo hi n).length = n)
    (hglob : mode = RSMode.global → 0 < ncols (X_synthetic_normal o X y RSMode.global)) :
    (generate_realistic_synthetic o X y mode alpha percentage).1.length = pts_n y + pts_a y ∧
    (generate_realistic_synthetic o X y mode alpha percentage).1
      = X_synthetic_normal o X y mode ++ X_synthetic_anomalies o X y mode alpha percentage ∧
    (generate_realistic_synthetic o X y mode alpha percentage).2
      = List.replicate (pts_n y) 0 ++ List.replicate (pts_a y) 1 := by
  have h1 := length_X_synthetic_normal o X y mode hgs hcs
  have h2 := length_X_synthetic_anomalies o X y mode alpha percentage hgs hus hglob
  refine ⟨?_, rfl, ?_⟩
  · simp [generate_realistic_synthetic, h1, h2]
  · simp [generate_realistic_synthetic, h1, h2]

/-- Witness for C1 at a concrete oracle, input and mode. -/
theorem c1_witness :
    (generate_realistic_synthetic oW XW yW RSMode.loc 5 (1 / 10)).1.length = 3 ∧
    (generate_realistic_synthetic oW XW yW RSMode.loc 5 (1 / 10)).2 = [0, 0, 1] := by
  have h := c1_synthetic_shape oW XW yW RSMode.loc 5 (1 / 10)
    (by intro m n; simp [oW]) (by intro c n; simp [oW]) (by intro i lo hi n; simp [oW])
    (fun h => by cases h)
  refine ⟨?_, ?_⟩
  · rw [h.1]; decide
  · rw [h.2.2]; decide

/-- C4 counterexample: with `pts_a = 0` the anomaly-side sampling draw is
not skipped — the sampler is consulted with count 0 and its answer becomes
the anomaly block.  A sampler answering a nonempty matrix at count 0 makes
the block nonempty and adds a label-1 row, which could not happen if the
draw were skipped and the block forced empty. -/
theorem c4_counterexample :
    pts_a ([0, 0] : List ℕ) = 0 ∧
    X_synthetic_anomalies oC4 [[0], [0]] [0, 0] RSMode.loc 5 0 = [[42]] ∧
    (generate_realistic_synthetic oC4 [[0], [0]] [0, 0] RSMode.loc 5 0).2 = [0, 0, 1] := by
  decide

/-- C4 (amended): the draw is performed with count 0, not skipped; provided
the samplers honour the length contract of the real libraries (so a count-0
draw is empty), a zero anomaly target yields an empty anomaly block, a zero
normal target (outside global mode) an empty normal block, and the call
still succeeds with the concatenated result. -/
theorem c4_zero_targets {M C K : Type} (o : SynOracles M C K) (X : Mat) (y : List ℕ)
    (mode : RSMode) (alpha percentage : ℚ)
    (hgs : ∀ (m : M) (n : ℕ), (o.gm.sample m n).length = n)
    (hcs : ∀ (c : C) (n : ℕ), (o.cop.sample c n).length = n)
    (hus : ∀ (i : ℕ) (lo hi : ℚ) (n : ℕ), (o.uniform i lo hi n).length = n)
    (hglob : mode = RSMode.global → 0 < ncols (X_synthetic_normal o X y RSMode.global)) :
    (pts_a y = 0 →
      X_synthetic_anomalies o X y mode alpha percentage = [] ∧
      (generate_realistic_synthetic o X y mode alpha percentage).1.length = pts_n y ∧
      (generate_realistic_synthetic o X y mode alpha percentage).2
        = List.replicate (pts_n y) 0) ∧
    (pts_n y = 0 → mode ≠ RSMode.global →
      X_synthetic_normal o X y mode = [] ∧
      (generate_realistic_synthetic o X y mode alpha percentage).1.length = pts_a y ∧
      (generate_realistic_synthetic o X y mode alpha percentage).2
        = List.replicate (pts_a y) 1) := by
  have h1 := length_X_synthetic_normal o X y mode hgs hcs
  have h2 := length_X_synthetic_anomalies o X y mode alpha percentage hgs hus hglob
  constructor
  · intro hA
    have hAnil : X_synthetic_anomalies o X y mode alpha percentage = [] :=
      List.eq_nil_of_length_eq_zero (by rw [h2, hA])
    refine ⟨hAnil, ?_, ?_⟩
    · simp [generate_realistic_synthetic, h1, hAnil]
    · simp [generate_realistic_synthetic, h1, hAnil]
  · intro hN _
    have hNnil : X_synthetic_normal o X y mode = [] :=
      List.eq_nil_of_length_eq_zero (by rw [h1, hN])
    refine ⟨hNnil, ?_, ?_⟩
    · simp [generate_realistic_synthetic, h2, hNnil]
    · simp [generate_realistic_synthetic, h2, hNnil]

/-- Witness for the amended C4: a two-normal, zero-anomaly input under a
length-honouring sampler gives an empty anomaly block and an all-zero label
vector. -/
theorem c4_witness :
    X_synthetic_anomalies oW [[0], [0]] [0, 0] RSMode.loc 5 0 = [] ∧
    (generate_realistic_synthetic oW [[0], [0]] [0, 0] RSMode.loc 5 0).2 = [0, 0] := by
  have h := (c4_zero_targets oW [[0], [0]] [0, 0] RSMode.loc 5 0
    (by intro m n; simp [oW]) (by intro c n; simp [oW]) (by intro i lo hi n; simp [oW])
    (fun h => by cases h)).1 (by decide)
  exact ⟨h.1, by rw [h.2.2]; decide⟩

/-- C5 counterexample: in global mode with `percentage = 1/10` and a
synthetic normal population whose feature ranges over [-1, 1], the widened
uniform range is [-1.1, 1.1), so the legitimate uniform draw 0 is an
anomaly feature value that does not lie outside the normal population's
[min, max] — the "strictly outside" part of the claim is false. -/
theorem c5_counterexample :
    X_synthetic_normal oC5 XW yW RSMode.global = [[-1], [1]] ∧
    X_synthetic_anomalies oC5 XW yW RSMode.global 5 (1 / 10) = [[0]] ∧
    listMin (col (X_synthetic_normal oC5 XW yW RSMode.global) 0) = -1 ∧
    listMax (col (X_synthetic_normal oC5 XW yW RSMode.global) 0) = 1 ∧
    ¬((0 : ℚ) < listMin (col (X_synthetic_normal oC5 XW yW RSMode.global) 0) ∨
      listMax (col (X_synthetic_normal oC5 XW yW RSMode.global) 0) < (0 : ℚ)) := by
  decide

/-- C5 (amended): in global mode, for each feature the synthesizer scales
the synthetic-normal population's min and max by `1 + percentage` and draws
every anomaly value uniformly within that widened range; hence every
synthetic anomaly feature value lies within
`[min * (1 + percentage), max * (1 + percentage)]` — but not necessarily
outside the normal population's own [min, max]. -/
theorem c5_global_anomaly_range {M C K : Type} (o : SynOracles M C K) (X : Mat) (y : List ℕ)
    (alpha percentage : ℚ)
    (hus : ∀ (i : ℕ) (lo hi : ℚ) (n : ℕ), (o.uniform i lo hi n).length = n)
    (hub : ∀ (i : ℕ) (lo hi : ℚ) (n : ℕ), lo ≤ hi → ∀ v ∈ o.uniform i lo hi n, lo ≤ v ∧ v ≤ hi)
    (hp : 0 ≤ percentage) :
    ∀ row ∈ X_synthetic_anomalies o X y RSMode.global alpha percentage,
      ∀ j, j < ncols (X_synthetic_normal o X y RSMode.global) →
        listMin (col (X_synthetic_normal o X y RSMode.global) j) * (1 + percentage)
            ≤ row.getD j 0 ∧
        row.getD j 0
            ≤ listMax (col (X_synthetic_normal o X y RSMode.global) j) * (1 + percentage) := by
  intro row hrow j hj
  have hSne : X_synthetic_normal o X y RSMode.global ≠ [] := by
    intro h
    rw [h] at hj
    simp [ncols] at hj
  have hD : 0 < ncols (X_synthetic_normal o X y RSMode.global) := by omega
  have hanom : X_synthetic_anomalies o X y RSMode.global alpha percentage
      = transposeCols ((List.range (ncols (X_synthetic_normal o X y RSMode.global))).map
          (fun i => o.uniform i
            (listMin (col (X_synthetic_normal o X y RSMode.global) i) * (1 + percentage))
            (listMax (col (X_synthetic_normal o X y RSMode.global) i) * (1 + percentage))
            (pts_a y))) := rfl
  rw [hanom] at hrow
  obtain ⟨rIdx, hrIdx, hroweq⟩ := mem_transposeCols hrow
  obtain ⟨D', hD'⟩ : ∃ D', ncols (X_synthetic_normal o X y RSMode.global) = D' + 1 :=
    ⟨ncols (X_synthetic_normal o X y RSMode.global) - 1, by omega⟩
  rw [hD', List.range_succ_eq_map, List.map_cons, List.headD_cons, hus] at hrIdx
  have hcolne : col (X_synthetic_normal o X y RSMode.global) j ≠ [] := by
    intro h
    exact hSne (List.map_eq_nil_iff.mp h)
  have hle : listMin (col (X_synthetic_normal o X y RSMode.global) j) * (1 + percentage)
      ≤ listMax (col (X_synthetic_normal o X y RSMode.global) j) * (1 + percentage) :=
    mul_le_mul_of_nonneg_right (listMin_le_listMax hcolne) (by linarith)
  have hjlen : j < (List.map (fun cl => List.getD cl rIdx 0)
      ((List.range (ncols (X_synthetic_normal o X y RSMode.global))).map
        (fun i => o.uniform i
          (listMin (col (X_synthetic_normal o X y RSMode.global) i) * (1 + percentage))
          (listMax (col (X_synthetic_normal o X y RSMode.global) i) * (1 + percentage))
          (pts_a y)))).length := by
    simpa using hj
  have hval : row.getD j 0
      = (o.uniform j
          (listMin (col (X_synthetic_normal o X y RSMode.global) j) * (1 + percentage))
          (listMax (col (X_synthetic_normal o X y RSMode.global) j) * (1 + percentage))
          (pts_a y)).getD rIdx 0 := by
    rw [hroweq]
    rw [List.getD_eq_getElem _ _ hjlen]
    rw [List.getElem_map, List.getElem_map, List.getElem_range]
  rw [hval]
  have hmem : (o.uniform j
      (listMin (col (X_synthetic_normal o X y RSMode.global) j) * (1 + percentage))
      (listMax (col (X_synthetic_normal o X y RSMode.global) j) * (1 + percentage))
      (pts_a y)).getD rIdx 0
      ∈ o.uniform j
          (listMin (col (X_synthetic_normal o X y RSMode.global) j) * (1 + percentage))
          (listMax (col (X_synthetic_normal o X y RSMode.global) j) * (1 + percentage))
          (pts_a y) := by
    apply getD_mem
    rw [hus]
    exact hrIdx
  exact hub j _ _ (pts_a y) hle _ hmem

/-- Witness for the amended C5 at a concrete oracle and input. -/
theorem c5_witness :
    listMin (col (X_synthetic_normal oW XW yW RSMode.global) 0) * (1 + 1 / 10)
        ≤ (([0] : Row)).getD 0 0 ∧
    (([0] : Row)).getD 0 0
        ≤ listMax (col (X_synthetic_normal oW XW yW RSMode.global) 0) * (1 + 1 / 10) := by
  have h := c5_global_anomaly_range oW XW yW 5 (1 / 10)
    (by intro i lo hi n; simp [oW])
    (by
      intro i lo hi n hle v hv
      simp only [oW] at hv
      rw [List.eq_of_mem_replicate hv]
      exact ⟨le_refl lo, hle⟩)
    (by norm_num)
  have hS : X_synthetic_normal oW XW yW RSMode.global = [[0], [0]] := by decide
  have hanom0 : X_synthetic_anomalies oW XW yW RSMode.global 5 (1 / 10)
      = transposeCols ((List.range (ncols (X_synthetic_normal oW XW yW RSMode.global))).map
          (fun i => oW.uniform i
            (listMin (col (X_synthetic_normal oW XW yW RSMode.global) i) * (1 + 1 / 10))
            (listMax (col (X_synthetic_normal oW XW yW RSMode.global) i) * (1 + 1 / 10))
            (pts_a yW))) := rfl
  rw [hS] at hanom0
  have heq : X_synthetic_anomalies oW XW yW RSMode.global 5 (1 / 10) = [[0]] := by
    rw [hanom0]
    norm_num [ncols, col, listMin, listMax, pts_a, yW, oW, transposeCols]
  have hmem : ([0] : Row) ∈ X_synthetic_anomalies oW XW yW RSMode.global 5 (1 / 10) := by
    rw [heq]
    exact List.mem_singleton.mpr rfl
  have hj : 0 < ncols (X_synthetic_normal oW XW yW RSMode.global) := by
    rw [hS]
    decide
  exact h [0] hmem 0 hj

/-- C7: with `noise_type = label_contamination` the contamination operator
is applied to the training split only, after splitting; `y_test` as
returned equals the ground-truth test labels produced by the splitter, and
the test features are only scaled, never contaminated. -/
theorem c7_label_contamination_frame (dupChoice : List ℕ → ℕ → List ℕ)
    (dupShuffle : List ℕ → List ℕ) (contamChoice : ℕ → ℕ → List ℕ)
    (scale : Mat → Mat → Mat) (laChoice : List ℕ → ℕ → List ℕ) (prune : List ℕ → ℚ → List ℕ)
    (la : La) (b : Bool) (dt : ℕ) (cr nr : ℚ)
    (Xtr : Mat) (ytr : List ℕ) (Xte : Mat) (yte : List ℕ) (res : GenResult)
    (h : generator_post_split dupChoice dupShuffle contamChoice scale laChoice prune
        (some NoiseType.label_contamination) la b dt cr nr Xtr ytr Xte yte = Except.ok res) :
    res.y_test = yte ∧
    res.X_test = scale (add_label_contamination contamChoice Xtr ytr nr).1 Xte := by
  have hgen : generator_post_split dupChoice dupShuffle contamChoice scale laChoice prune
      (some NoiseType.label_contamination) la b dt cr nr Xtr ytr Xte yte
      = match idx_labeled_anomaly laChoice
          (idxWhere (add_label_contamination contamChoice Xtr ytr nr).2 1) la b with
        | .error e => .error e
        | .ok idxLab =>
            .ok ⟨scale (add_label_contamination contamChoice Xtr ytr nr).1
                   (add_label_contamination contamChoice Xtr ytr nr).1,
                 partition_labels (add_label_contamination contamChoice Xtr ytr nr).2
                   (idxWhere (add_label_contamination contamChoice Xtr ytr nr).2 0
                     ++ (idxWhere (add_label_contamination contamChoice Xtr ytr nr).2 1).filter
                          (fun i => decide (i ∉ idxLab))) idxLab,
                 scale (add_label_contamination contamChoice Xtr ytr nr).1 Xte, yte⟩ := rfl
  rw [hgen] at h
  cases hc : idx_labeled_anomaly laChoice
      (idxWhere (add_label_contamination contamChoice Xtr ytr nr).2 1) la b with
  | error e => rw [hc] at h; cases h
  | ok idxLab =>
    rw [hc] at h
    injection h with h2
    subst h2
    exact ⟨rfl, rfl⟩

/-- Witness for C7 at a concrete successful pipeline run. -/
theorem c7_witness :
    (GenResult.mk [[1], [2]] [0, 1] [[3]] [1]).y_test = [1] ∧
    (GenResult.mk [[1], [2]] [0, 1] [[3]] [1]).X_test
      = (fun _ m => m : Mat → Mat → Mat)
          (add_label_contamination (fun _ _ => []) [[1], [2]] [0, 1] 0).1 [[3]] :=
  c7_label_contamination_frame (fun _ _ => []) id (fun _ _ => []) (fun _ m => m)
    (fun pop k => pop.take k) (fun l _ => l) (La.count 1) false 2 1 0
    [[1], [2]] [0, 1] [[3]] [1] (GenResult.mk [[1], [2]] [0, 1] [[3]] [1]) rfl

/-- C9: every transformation step — outlier synthesis, duplicated-anomaly
resampling, irrelevant-feature augmentation, label contamination, and the
label partitioning — preserves the fundamental invariant: the label vector
stays row-aligned with the feature matrix and every label is 0 or 1. -/
theorem c9_step_invariants :
    (∀ (M C K : Type) (o : SynOracles M C K) (X : Mat) (y : List ℕ) (mode : RSMode)
        (alpha percentage : ℚ), rowAligned X y →
      rowAligned (generate_realistic_synthetic o X y mode alpha percentage).1
        (generate_realistic_synthetic o X y mode alpha percentage).2) ∧
    (∀ (choice : List ℕ → ℕ → List ℕ) (shuffle : List ℕ → List ℕ) (X : Mat) (y : List ℕ)
        (dt : ℕ), rowAligned X y →
      rowAligned (add_duplicated_anomalies choice shuffle X y dt).1
        (add_duplicated_anomalies choice shuffle X y dt).2) ∧
    (∀ (pickCol : ℕ → ℕ) (uniform : ℕ → ℚ → ℚ → ℕ → List ℚ) (permute : ℕ → List ℕ)
        (X : Mat) (y : List ℕ) (r : ℚ), rowAligned X y →
      rowAligned (add_irrelevant_features pickCol uniform permute X y r).1
        (add_irrelevant_features pickCol uniform permute X y r).2) ∧
    (∀ (choice : ℕ → ℕ → List ℕ) (X : Mat) (y : List ℕ) (r : ℚ), rowAligned X y →
      rowAligned (add_label_contamination choice X y r).1
        (add_label_contamination choice X y r).2) ∧
    (∀ (X : Mat) (y idxU idxL : List ℕ), rowAligned X y →
      rowAligned X (partition_labels y idxU idxL)) := by
  refine ⟨?_, ?_, ?_, ?_, ?_⟩
  · intro M C K o X y mode alpha percentage _
    constructor
    · simp [generate_realistic_synthetic]
    · intro l hl
      simp only [generate_realistic_synthetic, List.mem_append, List.mem_replicate] at hl
      rcases hl with ⟨_, h⟩ | ⟨_, h⟩
      · exact Or.inl h
      · exact Or.inr h
  · intro choice shuffle X y dt hXy
    unfold add_duplicated_anomalies
    split
    · exact hXy
    · constructor
      · simp
      · intro l hl
        simp only [List.mem_map] at hl
        obtain ⟨i, _, hi⟩ := hl
        rcases getD_mem_or_default y i 0 with hmem | hdef
        · exact hi ▸ hXy.2 _ hmem
        · exact Or.inl (hi ▸ hdef)
  · intro pickCol uniform permute X y r hXy
    by_cases hr : r = 0
    · simpa [add_irrelevant_features, hr] using hXy
    · by_cases hnd : 0 < (pyInt (r / (1 - r) * (ncols X : ℚ))).toNat
      · have hres : add_irrelevant_features pickCol uniform permute X y r
            = ((appendNoiseFrom (noiseColumns pickCol uniform X
                  ((pyInt (r / (1 - r) * (ncols X : ℚ))).toNat)) 0 X).map
                (fun row => (permute (ncols X
                  + (pyInt (r / (1 - r) * (ncols X : ℚ))).toNat)).map
                    (fun j => row.getD j 0)), y) := by
          simp only [add_irrelevant_features, if_neg hr, if_pos hnd]
        rw [hres]
        exact ⟨by simp [length_appendNoiseFrom, hXy.1], hXy.2⟩
      · have hres : add_irrelevant_features pickCol uniform permute X y r = (X, y) := by
          simp only [add_irrelevant_features, if_neg hr, if_neg hnd]
        rw [hres]
        exact hXy
  · intro choice X y r hXy
    unfold add_label_contamination
    split
    · exact hXy
    · constructor
      · simp [length_flipAt, hXy.1]
      · intro l hl
        rcases mem_flipAt _ _ _ _ hl with ⟨a, ha, hflip⟩ | hmem
        · rcases hXy.2 a ha with h0 | h1
          · subst hflip h0; exact Or.inr rfl
          · subst hflip h1; exact Or.inl rfl
        · exact hXy.2 _ hmem
  · intro X y idxU idxL hXy
    constructor
    · simp [partition_labels, length_setAll, hXy.1]
    · intro l hl
      rcases mem_setAll hl with h1 | hl2
      · exact Or.inr h1
      · rcases mem_setAll hl2 with h0 | hy
        · exact Or.inl h0
        · exact hXy.2 _ hy

lemma noiseColumns_getD (pickCol : ℕ → ℕ) (uniform : ℕ → ℚ → ℚ → ℕ → List ℚ)
    (X : Mat) (nd : ℕ) {i : ℕ} (hi : i < nd) :
    (noiseColumns pickCol uniform X nd).getD i []
      = uniform i (listMin (col X (pickCol i))) (listMax (col X (pickCol i))) X.length := by
  unfold noiseColumns
  rw [List.getD_eq_getElem _ _ (by simpa using hi)]
  rw [List.getElem_map, List.getElem_range]

/-- C8: `add_irrelevant_features` with `noise_ratio = 0` is the identity on
`(X, y)`; with `0 < r < 1` the returned matrix has the same rows and the
labels are unchanged, the column count equals `d + floor(r/(1-r)*d)`, and
every newly drawn noise column's values lie within the observed [min, max]
of the existing feature column it was sourced from. -/
theorem c8_irrelevant_features (pickCol : ℕ → ℕ) (uniform : ℕ → ℚ → ℚ → ℕ → List ℚ)
    (permute : ℕ → List ℕ) (X : Mat) (y : List ℕ) (r : ℚ)
    (hX : X ≠ [])
    (hperm : ∀ n, (permute n).length = n)
    (hub : ∀ (i : ℕ) (lo hi : ℚ) (n : ℕ), lo ≤ hi → ∀ v ∈ uniform i lo hi n, lo ≤ v ∧ v ≤ hi)
    (hr0 : 0 < r) (hr1 : r < 1) :
    add_irrelevant_features pickCol uniform permute X y 0 = (X, y) ∧
    (add_irrelevant_features pickCol uniform permute X y r).1.length = X.length ∧
    (add_irrelevant_features pickCol uniform permute X y r).2 = y ∧
    ((ncols (add_irrelevant_features pickCol uniform permute X y r).1 : ℤ)
      = (ncols X : ℤ) + ⌊r / (1 - r) * (ncols X : ℚ)⌋) ∧
    (∀ i, i < (pyInt (r / (1 - r) * (ncols X : ℚ))).toNat →
      ∀ v ∈ (noiseColumns pickCol uniform X
          ((pyInt (r / (1 - r) * (ncols X : ℚ))).toNat)).getD i [],
        listMin (col X (pickCol i)) ≤ v ∧ v ≤ listMax (col X (pickCol i))) := by
  obtain ⟨r0, rest, rfl⟩ := List.exists_cons_of_ne_nil hX
  have h1r : (0 : ℚ) < 1 - r := by linarith
  have hq0 : (0 : ℚ) ≤ r / (1 - r) * (ncols (r0 :: rest) : ℚ) :=
    mul_nonneg (le_of_lt (div_pos hr0 h1r)) (Nat.cast_nonneg _)
  have hndc : ((pyInt (r / (1 - r) * (ncols (r0 :: rest) : ℚ))).toNat : ℤ)
      = ⌊r / (1 - r) * (ncols (r0 :: rest) : ℚ)⌋ := by
    rw [pyInt_eq_floor hq0]
    exact Int.toNat_of_nonneg (Int.floor_nonneg.mpr hq0)
  have hrange : ∀ i, i < (pyInt (r / (1 - r) * (ncols (r0 :: rest) : ℚ))).toNat →
      ∀ v ∈ (noiseColumns pickCol uniform (r0 :: rest)
          ((pyInt (r / (1 - r) * (ncols (r0 :: rest) : ℚ))).toNat)).getD i [],
        listMin (col (r0 :: rest) (pickCol i)) ≤ v ∧ v ≤ listMax (col (r0 :: rest) (pickCol i)) := by
    intro i hi v hv
    rw [noiseColumns_getD pickCol uniform (r0 :: rest) _ hi] at hv
    have hcolne : col (r0 :: rest) (pickCol i) ≠ [] := by
      intro h
      exact List.cons_ne_nil r0 rest (List.map_eq_nil_iff.mp h)
    exact hub i _ _ (r0 :: rest).length (listMin_le_listMax hcolne) v hv
  by_cases hnd : 0 < (pyInt (r / (1 - r) * (ncols (r0 :: rest) : ℚ))).toNat
  · have hres : add_irrelevant_features pickCol uniform permute (r0 :: rest) y r
        = ((appendNoiseFrom (noiseColumns pickCol uniform (r0 :: rest)
              ((pyInt (r / (1 - r) * (ncols (r0 :: rest) : ℚ))).toNat)) 0 (r0 :: rest)).map
            (fun row => (permute (ncols (r0 :: rest)
              + (pyInt (r / (1 - r) * (ncols (r0 :: rest) : ℚ))).toNat)).map
                (fun j => row.getD j 0)), y) := by
      simp only [add_irrelevant_features, if_neg hr0.ne', if_pos hnd]
    refine ⟨by simp [add_irrelevant_features], ?_, ?_, ?_, hrange⟩
    · rw [hres]
      simp [length_appendNoiseFrom]
    · rw [hres]
    · have hcols : ncols (add_irrelevant_features pickCol uniform permute (r0 :: rest) y r).1
          = ncols (r0 :: rest)
            + (pyInt (r / (1 - r) * (ncols (r0 :: rest) : ℚ))).toNat := by
        rw [hres]
        simp [appendNoiseFrom, ncols, hperm]
      rw [hcols]
      push_cast
      omega
  · have hres : add_irrelevant_features pickCol uniform permute (r0 :: rest) y r
        = (r0 :: rest, y) := by
      simp only [add_irrelevant_features, if_neg hr0.ne', if_neg hnd]
    refine ⟨by simp [add_irrelevant_features], ?_, ?_, ?_, hrange⟩
    · rw [hres]
    · rw [hres]
    · rw [hres]
      have h0 : ⌊r / (1 - r) * (ncols (r0 :: rest) : ℚ)⌋ = 0 := by omega
      simp [h0]

/-- Witness for C8 at a concrete oracle set, `XW` and `r = 1/2`. -/
theorem c8_witness :
    add_irrelevant_features (fun _ => 0) (fun _ lo _ n => List.replicate n lo)
        (fun n => List.range n) XW yW 0 = (XW, yW) ∧
    (add_irrelevant_features (fun _ => 0) (fun _ lo _ n => List.replicate n lo)
        (fun n => List.range n) XW yW (1 / 2)).1.length = 3 ∧
    (add_irrelevant_features (fun _ => 0) (fun _ lo _ n => List.replicate n lo)
        (fun n => List.range n) XW yW (1 / 2)).2 = yW ∧
    ncols (add_irrelevant_features (fun _ => 0) (fun _ lo _ n => List.replicate n lo)
        (fun n => List.range n) XW yW (1 / 2)).1 = 2 := by
  have h := c8_irrelevant_features (fun _ => 0) (fun _ lo _ n => List.replicate n lo)
    (fun n => List.range n) XW yW (1 / 2) (by decide) (by intro n; simp)
    (by
      intro i lo hi n hle v hv
      rw [List.eq_of_mem_replicate hv]
      exact ⟨le_refl lo, hle⟩)
    (by norm_num) (by norm_num)
  refine ⟨h.1, ?_, h.2.2.1, ?_⟩
  · rw [h.2.1]
    decide
  · have h4 := h.2.2.2.1
    have hval : (ncols XW : ℤ) + ⌊(1 / 2 : ℚ) / (1 - 1 / 2) * (ncols XW : ℚ)⌋ = 2 := by
      have hn : (ncols XW : ℚ) = 1 := by norm_num [ncols, XW]
      rw [hn]
      norm_num [ncols, XW]
    omega

/-- Witness for C9: the five preservation statements at concrete inputs. -/
theorem c9_witness :
    rowAligned (generate_realistic_synthetic oW XW yW RSMode.loc 5 (1 / 10)).1
      (generate_realistic_synthetic oW XW yW RSMode.loc 5 (1 / 10)).2 ∧
    rowAligned (add_duplicated_anomalies (fun _ _ => [2]) id XW yW 2).1
      (add_duplicated_anomalies (fun _ _ => [2]) id XW yW 2).2 ∧
    rowAligned (add_irrelevant_features (fun _ => 0) (fun _ lo _ n => List.replicate n lo)
        (fun n => List.range n) XW yW (1 / 2)).1
      (add_irrelevant_features (fun _ => 0) (fun _ lo _ n => List.replicate n lo)
        (fun n => List.range n) XW yW (1 / 2)).2 ∧
    rowAligned (add_label_contamination (fun _ _ => [0]) XW yW (1 / 2)).1
      (add_label_contamination (fun _ _ => [0]) XW yW (1 / 2)).2 ∧
    rowAligned XW (partition_labels yW [0, 1] [2]) :=
  ⟨c9_step_invariants.1 Unit Unit Unit oW XW yW RSMode.loc 5 (1 / 10) ⟨rfl, by decide⟩,
   c9_step_invariants.2.1 (fun _ _ => [2]) id XW yW 2 ⟨rfl, by decide⟩,
   c9_step_invariants.2.2.1 (fun _ => 0) (fun _ lo _ n => List.replicate n lo)
     (fun n => List.range n) XW yW (1 / 2) ⟨rfl, by decide⟩,
   c9_step_invariants.2.2.2.1 (fun _ _ => [0]) XW yW (1 / 2) ⟨rfl, by decide⟩,
   c9_step_invariants.2.2.2.2 XW yW [0, 1] [2] ⟨rfl, by decide⟩⟩

end ADBench
